import Mathlib

/-!
Verification of the groupcache core: a shallow embedding of the LRU engine,
the byte-accounted cache tiers, the Group populate/load orchestration, the
single-flight coordinator and the consistent-hash ring, with theorems about
the specified invariants and behaviours.
-/

namespace GC

/-- Byte strings: the contents of a Go `[]byte` or `string` are modelled as
lists of bytes. -/
abbrev Bytes := List UInt8

/-- `ByteView` (byteview source file): holds an immutable view of bytes.
Internally it wraps either a byte slice `b` (`none` models a nil slice) or a
string `s`; if `b` is non-nil, `b` is used, else `s` is used. -/
structure ByteView where
  b : Option Bytes
  s : Bytes
  deriving DecidableEq, Repr

/-- `Len`: `len(v.b)` when `b` is non-nil, else `len(v.s)`. -/
def ByteView.Len (v : ByteView) : Nat :=
  match v.b with
  | some bb => bb.length
  | none => v.s.length

/-- `At i`: the byte at index `i` (out-of-range reads are totalised with a
zero default, identically for both representations). -/
def ByteView.At (v : ByteView) (i : Nat) : UInt8 :=
  match v.b with
  | some bb => bb.getD i 0
  | none => v.s.getD i 0

/-- Go slicing `l[f:t]`. -/
def goSlice (l : Bytes) (f t : Nat) : Bytes := (l.take t).drop f

/-- `Slice from to`: slices the underlying representation, keeping the same
representation as the receiver. -/
def ByteView.Slice (v : ByteView) (f t : Nat) : ByteView :=
  match v.b with
  | some bb => ⟨some (goSlice bb f t), []⟩
  | none => ⟨none, goSlice v.s f t⟩

/-- `SliceFrom from`: slices the view from `from` to the end. -/
def ByteView.SliceFrom (v : ByteView) (f : Nat) : ByteView :=
  match v.b with
  | some bb => ⟨some (bb.drop f), []⟩
  | none => ⟨none, v.s.drop f⟩

/-- Go `copy(dest, src)`: copies `min (len dest) (len src)` bytes into the
front of `dest` and returns the count together with the updated `dest`. -/
def goCopy (dest src : Bytes) : Nat × Bytes :=
  let n := min dest.length src.length
  (n, src.take n ++ dest.drop n)

/-- `Copy dest`: copies the view's bytes into `dest`. -/
def ByteView.Copy (v : ByteView) (dest : Bytes) : Nat × Bytes :=
  match v.b with
  | some bb => goCopy dest bb
  | none => goCopy dest v.s

/-- `String()`: the data as a string (content of `b`, copied, or `s`). -/
def ByteView.String (v : ByteView) : Bytes :=
  match v.b with
  | some bb => bb
  | none => v.s

/-- `cloneBytes`: a fresh copy of a byte slice (same content). -/
def cloneBytes (bb : Bytes) : Bytes := bb

/-- `ByteSlice()`: a copy of the data as a byte slice (`cloneBytes(b)` or
`[]byte(s)`). -/
def ByteView.ByteSlice (v : ByteView) : Bytes :=
  match v.b with
  | some bb => cloneBytes bb
  | none => v.s

/-- The element-by-element comparison loop of `EqualString` / `EqualBytes`
(`for i, bi := range xs ...` comparing against `ys[i]`), which the source only
runs after checking that the lengths agree. -/
def eqLoop (xs ys : Bytes) : Bool := (xs.zip ys).all fun p => p.1 == p.2

/-- `EqualString s`: string comparison when `b` is nil, else a length check
followed by the byte loop. -/
def ByteView.EqualString (v : ByteView) (s : Bytes) : Bool :=
  match v.b with
  | none => v.s == s
  | some bb => if s.length ≠ v.Len then false else eqLoop bb s

/-- `EqualBytes b2`: `bytes.Equal` when `b` is non-nil, else a length check
followed by the byte loop over `b2` against `s`. -/
def ByteView.EqualBytes (v : ByteView) (b2 : Bytes) : Bool :=
  match v.b with
  | some bb => bb == b2
  | none => if b2.length ≠ v.Len then false else eqLoop b2 v.s

/-- `Equal b2`: dispatches on `b2`'s representation. -/
def ByteView.Equal (v b2 : ByteView) : Bool :=
  match b2.b with
  | none => v.EqualString b2.s
  | some bb => v.EqualBytes bb

/-- The byte content a view denotes (`b` if present, else `s`). -/
def ByteView.content (v : ByteView) : Bytes :=
  match v.b with
  | some bb => bb
  | none => v.s

/-! ## LRU engine (src/lru/lru.go) -/

/-- `lru.Cache`: MaxEntries (Go `int`, zero means no limit) and the ordered
entry list, front = most recently used, back = oldest. The key-indexed map of
the source always mirrors the list (every index entry points to a present
node), so the pair is modelled by the list alone; `none` models the zero
value whose map and list are both nil. The OnEvicted callback is surfaced by
returning each removed entry to the caller. -/
structure LruCache (K V : Type) where
  maxEntries : Int
  ll : Option (List (K × V))
  deriving DecidableEq, Repr

/-- `lru.New maxEntries`: fresh cache with initialised (empty) structures. -/
def LruCache.new (K V : Type) (maxEntries : Int) : LruCache K V :=
  ⟨maxEntries, some []⟩

/-- The zero value of `lru.Cache`: nil map and list. -/
def LruCache.zeroValue (K V : Type) : LruCache K V := ⟨0, none⟩

/-- The key test used by the map lookup `c.cache[key]`. -/
def keyIs {K V : Type} [DecidableEq K] (k : K) : K × V → Bool :=
  fun e => decide (e.1 = k)

/-- `Cache.RemoveOldest`: nil-safe; removes the back (oldest) node, handing
it to the eviction callback (returned as the second component). -/
def LruCache.RemoveOldest {K V : Type} (c : LruCache K V) :
    LruCache K V × Option (K × V) :=
  match c.ll with
  | none => (c, none)
  | some ll =>
    match ll.getLast? with
    | none => (c, none)
    | some e => ({ c with ll := some ll.dropLast }, some e)

/-- `Cache.Add`: lazily initialises nil structures; on a present key moves
the node to the front and replaces its value; otherwise pushes a new front
node and, when MaxEntries is non-zero and the length exceeds it, calls
RemoveOldest. -/
def LruCache.Add {K V : Type} [DecidableEq K] (c : LruCache K V) (k : K)
    (v : V) : LruCache K V × Option (K × V) :=
  let ll := c.ll.getD []
  match ll.find? (keyIs k) with
  | some _ => ({ c with ll := some ((k, v) :: ll.eraseP (keyIs k)) }, none)
  | none =>
    let c1 : LruCache K V := { c with ll := some ((k, v) :: ll) }
    if c.maxEntries ≠ 0 ∧ (((k, v) :: ll).length : Int) > c.maxEntries then
      c1.RemoveOldest
    else (c1, none)

/-- `Cache.Get`: nil-safe; on a hit moves the node to the front and returns
its value. -/
def LruCache.Get {K V : Type} [DecidableEq K] (c : LruCache K V) (k : K) :
    LruCache K V × Option V :=
  match c.ll with
  | none => (c, none)
  | some ll =>
    match ll.find? (keyIs k) with
    | none => (c, none)
    | some e => ({ c with ll := some (e :: ll.eraseP (keyIs k)) }, some e.2)

/-- `Cache.Remove`: nil-safe; detaches the node of the given key, handing it
to the eviction callback. -/
def LruCache.Remove {K V : Type} [DecidableEq K] (c : LruCache K V) (k : K) :
    LruCache K V × Option (K × V) :=
  match c.ll with
  | none => (c, none)
  | some ll =>
    match ll.find? (keyIs k) with
    | none => (c, none)
    | some e => ({ c with ll := some (ll.eraseP (keyIs k)) }, some e)

/-- `Cache.Len`: nil-safe entry count. -/
def LruCache.Len {K V : Type} (c : LruCache K V) : Nat :=
  match c.ll with
  | none => 0
  | some ll => ll.length

/-! ## Cache tier (`cache` in the groupcache source file) -/

/-- Entry cost: `len(key) + value.Len()`, the quantity counted by the tier's
byte accounting and by its eviction callback. -/
def entryCost (k : String) (v : ByteView) : Int :=
  (k.length : Int) + (v.Len : Int)

/-- `cache`: wrapper around an `lru.Cache` with byte accounting and
counters. `lru = none` models the nil inner engine before lazy
initialisation. -/
structure TierCache where
  nbytes : Int
  lru : Option (LruCache String ByteView)
  nhit : Int
  nget : Int
  nevict : Int
  deriving DecidableEq, Repr

/-- The zero value of `cache`. -/
def TierCache.zeroValue : TierCache := ⟨0, none, 0, 0, 0⟩

/-- Effect of the OnEvicted callback installed on lazy initialisation
(`nbytes -= len(key)+len(value); nevict++`), applied to the entry the inner
engine reports evicted, if any. -/
def applyEvicted (c : TierCache) : Option (String × ByteView) → TierCache
  | none => c
  | some (k, v) =>
    { c with nbytes := c.nbytes - entryCost k v, nevict := c.nevict + 1 }

/-- `cache.add`: lazily creates the inner engine (zero MaxEntries, with the
OnEvicted callback installed), adds the entry (running the callback on
anything evicted), then `nbytes += len(key) + len(value)`. -/
def TierCache.add (c : TierCache) (key : String) (value : ByteView) :
    TierCache :=
  let lru0 := c.lru.getD ⟨0, none⟩
  let res := lru0.Add key value
  let c1 := applyEvicted { c with lru := some res.1 } res.2
  { c1 with nbytes := c1.nbytes + entryCost key value }

/-- `cache.get`: `nget++`; nil-safe; on a hit `nhit++` and the value is
returned. -/
def TierCache.get (c : TierCache) (key : String) :
    TierCache × Option ByteView :=
  let c0 := { c with nget := c.nget + 1 }
  match c0.lru with
  | none => (c0, none)
  | some lru0 =>
    let res := lru0.Get key
    match res.2 with
    | none => ({ c0 with lru := some res.1 }, none)
    | some vi => ({ c0 with lru := some res.1, nhit := c0.nhit + 1 }, some vi)

/-- `cache.removeOldest`: nil-safe; removes the oldest entry through the
eviction callback. -/
def TierCache.removeOldest (c : TierCache) : TierCache :=
  match c.lru with
  | none => c
  | some lru0 =>
    let res := lru0.RemoveOldest
    applyEvicted { c with lru := some res.1 } res.2

/-- `cache.bytes`. -/
def TierCache.bytes (c : TierCache) : Int := c.nbytes

/-- `cache.items` (via `itemsLocked`). -/
def TierCache.items (c : TierCache) : Int :=
  match c.lru with
  | none => 0
  | some lru0 => (lru0.Len : Int)

/-- The entries currently live in the tier's inner LRU. -/
def TierCache.entries (c : TierCache) : List (String × ByteView) :=
  match c.lru with
  | none => []
  | some lru0 => lru0.ll.getD []

/-- Sum of entry costs over live entries. -/
def sumCost (l : List (String × ByteView)) : Int :=
  (l.map fun e => entryCost e.1 e.2).sum

/-- Cost decrement applied by the eviction callback for an optional evicted
entry. -/
def evictedCost : Option (String × ByteView) → Int
  | none => 0
  | some e => entryCost e.1 e.2

/-- One operation of the tier's add / get / removeOldest interface. -/
inductive TierOp where
  | add (k : String) (v : ByteView)
  | get (k : String)
  | removeOldest
  deriving DecidableEq, Repr

/-- Run one tier operation (the value returned by get is discarded). -/
def TierCache.exec (c : TierCache) : TierOp → TierCache
  | .add k v => c.add k v
  | .get k => (c.get k).1
  | .removeOldest => c.removeOldest

/-- Run a sequence of tier operations, first operation first. -/
def TierCache.execSeq (c : TierCache) (ops : List TierOp) : TierCache :=
  ops.foldl TierCache.exec c

/-- Traces in which every add inserts a key that is absent from the tier at
that moment. -/
inductive FreshAdds : TierCache → List TierOp → Prop where
  | nil (c : TierCache) : FreshAdds c []
  | add (c : TierCache) (k : String) (v : ByteView) (ops : List TierOp) :
      c.entries.find? (keyIs k) = none →
      FreshAdds (c.exec (.add k v)) ops → FreshAdds c (.add k v :: ops)
  | get (c : TierCache) (k : String) (ops : List TierOp) :
      FreshAdds (c.exec (.get k)) ops → FreshAdds c (.get k :: ops)
  | removeOldest (c : TierCache) (ops : List TierOp) :
      FreshAdds (c.exec .removeOldest) ops →
      FreshAdds c (.removeOldest :: ops)

/-! ## Group (groupcache source file) -/

/-- Per-group statistics counters (each an AtomicInt, i.e. an int64). -/
structure Stats where
  gets : Int
  cacheHits : Int
  peerLoads : Int
  peerErrors : Int
  loads : Int
  loadsDeduped : Int
  localLoads : Int
  localLoadErrs : Int
  serverRequests : Int
  deriving DecidableEq, Repr

/-- All-zero statistics. -/
def Stats.zero : Stats := ⟨0, 0, 0, 0, 0, 0, 0, 0, 0⟩

/-- Group state relevant to caching: the combined byte budget `cacheBytes`
and the two tiers, plus the statistics counters. -/
structure Group where
  cacheBytes : Int
  mainCache : TierCache
  hotCache : TierCache
  stats : Stats
  deriving DecidableEq, Repr

/-- Which tier a populateCache call targets. -/
inductive WhichCache where
  | main
  | hot
  deriving DecidableEq, Repr

/-- The pair of tiers after the `cache.add` at the top of populateCache. -/
def Group.tierAdd (g : Group) (key : String) (value : ByteView) :
    WhichCache → TierCache × TierCache
  | .main => (g.mainCache.add key value, g.hotCache)
  | .hot => (g.mainCache, g.hotCache.add key value)

/-- One iteration of populateCache's eviction loop, run when the byte budget
is exceeded: read mainBytes and hotBytes, pick the hot tier as victim when
hotBytes > mainBytes/8 (Go truncated integer division, `Int.tdiv`), else the
main tier, and evict the victim's oldest entry. -/
def evictOnce (s : TierCache × TierCache) : TierCache × TierCache :=
  if s.2.bytes > Int.tdiv s.1.bytes 8 then (s.1, s.2.removeOldest)
  else (s.1.removeOldest, s.2)

/-- populateCache's `for` loop with explicit fuel: returns the tiers at the
first point where mainBytes + hotBytes ≤ B; `none` models not reaching that
point within the fuel (the source loop would still be running). -/
def evictLoop (B : Int) : Nat → TierCache × TierCache →
    Option (TierCache × TierCache)
  | 0, _ => none
  | fuel + 1, s =>
    if s.1.bytes + s.2.bytes ≤ B then some s
    else evictLoop B fuel (evictOnce s)

/-- `Group.populateCache`: a no-op when cacheBytes ≤ 0; otherwise add the
entry to the designated tier and loop evicting until the combined bytes fit
the budget. -/
def Group.populateCache (g : Group) (key : String) (value : ByteView)
    (which : WhichCache) (fuel : Nat) : Option Group :=
  if g.cacheBytes ≤ 0 then some g
  else
    (evictLoop g.cacheBytes fuel (g.tierAdd key value which)).map fun s =>
      { g with mainCache := s.1, hotCache := s.2 }

/-- `Group.lookupCache`: miss when cacheBytes ≤ 0; else probe the main tier
then the hot tier (each probe updates the probed tier's state). -/
def Group.lookupCache (g : Group) (key : String) : Group × Option ByteView :=
  if g.cacheBytes ≤ 0 then (g, none)
  else
    let resM := g.mainCache.get key
    let g1 := { g with mainCache := resM.1 }
    match resM.2 with
    | some v => (g1, some v)
    | none =>
      let resH := g1.hotCache.get key
      ({ g1 with hotCache := resH.1 }, resH.2)

/-- `Group.getFromPeer`: on transport success wrap the response bytes
(nil-able) as a view and, when the drawn sample `rand.Intn(10)` is 0,
populate the hot tier (with its eviction sweep). `rnd` is the drawn sample;
`fuel` bounds the sweep. -/
def Group.getFromPeer (g : Group) (key : String)
    (peerResult : Except String (Option Bytes)) (rnd : Nat) (fuel : Nat) :
    Option (Group × Except String ByteView) :=
  match peerResult with
  | .error e => some (g, .error e)
  | .ok resValue =>
    let value : ByteView := ⟨resValue, []⟩
    if rnd = 0 then
      (g.populateCache key value .hot fuel).map fun g1 => (g1, .ok value)
    else some (g, .ok value)

/-- The local branch of the load producer: getLocally's outcome (the user
loader's error, or the view taken from the sink), then on success
`LocalLoads++`, destPopulated := true, and populate the main tier. -/
def Group.loadLocally (g : Group) (key : String)
    (localResult : Except String ByteView) (fuel : Nat) :
    Option (Group × Except String (ByteView × Bool)) :=
  match localResult with
  | .error e =>
    some ({ g with stats := { g.stats with
      localLoadErrs := g.stats.localLoadErrs + 1 } }, .error e)
  | .ok value =>
    let g1 := { g with stats := { g.stats with
      localLoads := g.stats.localLoads + 1 } }
    (g1.populateCache key value .main fuel).map fun g2 => (g2, .ok (value, true))

/-- `Group.load` for the caller whose producer runs under the single-flight
gate: `Loads++`, then inside the producer re-probe the cache (hit →
`CacheHits++` and return), else `LoadsDeduped++` and try the remote peer
when one was picked (`pick` is PickPeer's ok result; success → `PeerLoads++`
and return without populating; error → `PeerErrors++` and fall through),
finally the local loader. The second component of the result pairs the view
with destPopulated. -/
def Group.load (g0 : Group) (key : String) (pick : Bool)
    (peerResult : Except String (Option Bytes)) (rnd : Nat)
    (localResult : Except String ByteView) (fuel : Nat) :
    Option (Group × Except String (ByteView × Bool)) :=
  let g := { g0 with stats := { g0.stats with loads := g0.stats.loads + 1 } }
  let probe := g.lookupCache key
  match probe.2 with
  | some value =>
    some ({ probe.1 with stats := { probe.1.stats with
      cacheHits := probe.1.stats.cacheHits + 1 } }, .ok (value, false))
  | none =>
    let g1 := { probe.1 with stats := { probe.1.stats with
      loadsDeduped := probe.1.stats.loadsDeduped + 1 } }
    if pick then
      match g1.getFromPeer key peerResult rnd fuel with
      | none => none
      | some (g2, .ok value) =>
        some ({ g2 with stats := { g2.stats with
          peerLoads := g2.stats.peerLoads + 1 } }, .ok (value, false))
      | some (g2, .error _) =>
        Group.loadLocally
          { g2 with stats := { g2.stats with
            peerErrors := g2.stats.peerErrors + 1 } }
          key localResult fuel
    else Group.loadLocally g1 key localResult fuel

/-! ## Single-flight coordinator (package singleflight) -/

/-- The guarded map `m : map[string]*call`. A record's state is the stored
(value, error) result once the producer has run and `wg.Done()` was
signalled, or `none` while the WaitGroup is still pending. -/
abbrev SFMap (R : Type) := List (String × Option R)

/-- Waiting on a call record (`c.wg.Wait()` then reading `c.val, c.err`):
yields the stored result once completion was signalled; `none` models
blocking forever on a record whose `wg.Done()` never runs. -/
def sfWait {R : Type} (st : Option R) : Option R := st

/-- Outcome of `Group.Do` as observed by the calling goroutine. -/
inductive DoRes (R : Type) where
  | waited (r : Option R)
  | returned (r : R)
  | crashed
  deriving DecidableEq, Repr

/-- `Do(key, fn)`: with the mutex held, look up `key`; when a record exists,
release the mutex, wait on the record and return its stored result.
Otherwise insert a fresh pending record, release the mutex and run `fn`
(whose outcome is the parameter `outcome`, `none` modelling a panic): on
normal return the result is stored, completion signalled, the record
deleted and the result returned; on a panic the unwind skips `wg.Done()`
and the `delete`, leaving the pending record in the map. -/
def sfDo {R : Type} (m : SFMap R) (key : String) (outcome : Option R) :
    SFMap R × DoRes R :=
  match m.find? (fun p => decide (p.1 = key)) with
  | some c => (m, .waited (sfWait c.2))
  | none =>
    match outcome with
    | none => ((key, none) :: m, .crashed)
    | some v => (m, .returned v)

/-! ## Consistent-hash ring (package consistenthash) -/

/-- `consistenthash.Map`: replica count, hash function (uint32-valued),
the slice of virtual-node hashes (kept sorted ascending) and the
hash → peer mapping, whose writes overwrite (last writer wins) and whose
lookup of an absent hash yields the zero value "". -/
structure CHMap where
  replicas : Nat
  hash : String → Nat
  keys : List Int
  hashMap : List (Int × String)

/-- `consistenthash.New`. -/
def CHMap.new (replicas : Nat) (hash : String → Nat) : CHMap :=
  ⟨replicas, hash, [], []⟩

/-- `Map.IsEmpty`. -/
def CHMap.IsEmpty (m : CHMap) : Bool := m.keys.length == 0

/-- Go map read `m.hashMap[h]` (zero value "" when absent); writes prepend,
so the first match is the last writer. -/
def mapLookup (l : List (Int × String)) (h : Int) : String :=
  match l.find? (fun p => decide (p.1 = h)) with
  | some p => p.2
  | none => ""

/-- The inner loop of `Map.Add` for a single peer key: for each
i ∈ [0, replicas), hash `strconv.Itoa(i) + key`, append the hash to the
keys slice and write hash → key into the map. -/
def CHMap.addOne (m : CHMap) (key : String) : CHMap :=
  let hs := (List.range m.replicas).map fun i => (m.hash (toString i ++ key) : Int)
  { m with
    keys := m.keys ++ hs
    hashMap := (hs.map fun h => (h, key)).reverse ++ m.hashMap }

/-- `Map.Add(keys...)`: insert every peer's virtual nodes, then
`sort.Ints(m.keys)`. -/
def CHMap.Add (m : CHMap) (keys : List String) : CHMap :=
  let m1 := keys.foldl CHMap.addOne m
  { m1 with keys := m1.keys.mergeSort fun a b => decide (a ≤ b) }

/-- Go's `sort.Search` binary-search loop:
`for i < j { h := (i+j)/2; if !f(h) { i = h+1 } else { j = h } }; return i`,
with fuel j - i (sufficient, since the gap shrinks every iteration). -/
def searchLoop (f : Nat → Bool) : Nat → Nat → Nat → Nat
  | 0, i, _ => i
  | fuel + 1, i, j =>
    if i < j then
      let h := (i + j) / 2
      if ! f h then searchLoop f fuel (h + 1) j else searchLoop f fuel i h
    else i

/-- `sort.Search(n, f)`. -/
def sortSearch (n : Nat) (f : Nat → Bool) : Nat := searchLoop f n 0 n

/-- `Map.Get(key)`: "" on an empty ring; otherwise h := hash(key),
binary-search the sorted keys for the first index whose element is ≥ h,
wrap to index 0 when the search ran off the end, and look the chosen hash
up in the map. -/
def CHMap.Get (m : CHMap) (key : String) : String :=
  if m.IsEmpty then ""
  else
    let h : Int := (m.hash key : Int)
    let idx0 := sortSearch m.keys.length fun i => decide (m.keys.getD i 0 ≥ h)
    let idx := if idx0 = m.keys.length then 0 else idx0
    mapLookup m.hashMap (m.keys.getD idx 0)

/-- Linear scan returning the first index in [i, i + c) satisfying f, else
i + c; `scanLeast f n 0` is the spec's "least element ≥ h" index. -/
def scanLeast (f : Nat → Bool) : Nat → Nat → Nat
  | 0, i => i
  | c + 1, i => if f i then i else scanLeast f c (i + 1)

/-- The spec's description of Get: compute h = hash(key), take the least
element of the sorted sequence that is ≥ h (wrapping to index 0 when there
is none), and return the peer mapped to that hash; "" on an empty ring. -/
def chGetSpec (m : CHMap) (key : String) : String :=
  if m.keys.length = 0 then ""
  else
    let h : Int := (m.hash key : Int)
    let idx0 := scanLeast (fun i => decide (m.keys.getD i 0 ≥ h)) m.keys.length 0
    let idx := if idx0 = m.keys.length then 0 else idx0
    mapLookup m.hashMap (m.keys.getD idx 0)

/-! ## Theorems -/

theorem eqLoop_eq_beq (xs : Bytes) : ∀ ys : Bytes, xs.length = ys.length →
    eqLoop xs ys = (xs == ys) := by
  induction xs with
  | nil =>
    intro ys h
    cases ys with
    | nil => rfl
    | cons y ys => simp at h
  | cons x xs ih =>
    intro ys h
    cases ys with
    | nil => simp at h
    | cons y ys =>
      have hlen : xs.length = ys.length := by
        simpa using h
      have : eqLoop (x :: xs) (y :: ys) = ((x == y) && eqLoop xs ys) := by
        simp [eqLoop, List.zip_cons_cons]
      rw [this, ih ys hlen]
      show ((x == y) && (xs == ys)) = ((x :: xs) == (y :: ys))
      rcases h1 : (x == y) with _ | _ <;> rcases h2 : (xs == ys) with _ | _ <;>
        simp_all

theorem beq_false_of_length_ne (xs ys : Bytes) (h : xs.length ≠ ys.length) :
    (xs == ys) = false := by
  rcases hb : (xs == ys) with _ | _
  · rfl
  · exact absurd (congrArg List.length (eq_of_beq hb)) h

/-- C9: a view holding content as an owned byte sequence and a view holding
the same content as borrowed text behave identically at the interface:
Len, At, Slice, SliceFrom, Copy, String, ByteSlice, Equal, EqualString and
EqualBytes give equal (observationally equal, for the view-valued slicing
operations) results on both representations. -/
theorem c9_byteview_representations_equivalent (content : Bytes) :
    (ByteView.mk (some content) []).Len = (ByteView.mk none content).Len
    ∧ (∀ i, (ByteView.mk (some content) []).At i
        = (ByteView.mk none content).At i)
    ∧ (∀ f t, ((ByteView.mk (some content) []).Slice f t).content
        = ((ByteView.mk none content).Slice f t).content)
    ∧ (∀ f, ((ByteView.mk (some content) []).SliceFrom f).content
        = ((ByteView.mk none content).SliceFrom f).content)
    ∧ (∀ dest, (ByteView.mk (some content) []).Copy dest
        = (ByteView.mk none content).Copy dest)
    ∧ (ByteView.mk (some content) []).String = (ByteView.mk none content).String
    ∧ (ByteView.mk (some content) []).ByteSlice
        = (ByteView.mk none content).ByteSlice
    ∧ (∀ w, (ByteView.mk (some content) []).Equal w
        = (ByteView.mk none content).Equal w)
    ∧ (∀ s, (ByteView.mk (some content) []).EqualString s
        = (ByteView.mk none content).EqualString s)
    ∧ (∀ b2, (ByteView.mk (some content) []).EqualBytes b2
        = (ByteView.mk none content).EqualBytes b2) := by
  have hstr : ∀ s, (ByteView.mk (some content) []).EqualString s
      = (ByteView.mk none content).EqualString s := by
    intro s
    show (if s.length ≠ content.length then false else eqLoop content s)
        = (content == s)
    by_cases hl : s.length = content.length
    · rw [if_neg (by simpa using hl), eqLoop_eq_beq content s hl.symm]
    · rw [if_pos (by simpa using hl),
        beq_false_of_length_ne content s (fun hc => hl hc.symm)]
  have hbytes : ∀ b2, (ByteView.mk (some content) []).EqualBytes b2
      = (ByteView.mk none content).EqualBytes b2 := by
    intro b2
    show (content == b2)
        = (if b2.length ≠ content.length then false else eqLoop b2 content)
    by_cases hl : b2.length = content.length
    · rw [if_neg (by simpa using hl), eqLoop_eq_beq b2 content hl]
      rcases hb : (content == b2) with _ | _ <;>
        rcases hb2 : (b2 == content) with _ | _ <;> simp_all
    · rw [if_pos (by simpa using hl),
        beq_false_of_length_ne content b2 (fun hc => hl hc.symm)]
  refine ⟨rfl, fun i => rfl, fun f t => rfl, fun f => rfl, fun dest => rfl,
    rfl, rfl, ?_, hstr, hbytes⟩
  intro w
  show ByteView.Equal _ w = ByteView.Equal _ w
  unfold ByteView.Equal
  cases w.b with
  | none => exact hstr w.s
  | some bb => exact hbytes bb

/-- C10: every operation on a zero-value LRU cache (nil map and list) is
total and safe: Get misses, Remove and RemoveOldest are no-ops, Len is 0,
and Add behaves exactly as on a freshly constructed unbounded cache. -/
theorem c10_zero_value_lru_safe (K V : Type) [DecidableEq K] :
    (∀ k : K, (LruCache.zeroValue K V).Get k = (LruCache.zeroValue K V, none))
    ∧ (∀ k : K,
        (LruCache.zeroValue K V).Remove k = (LruCache.zeroValue K V, none))
    ∧ (LruCache.zeroValue K V).RemoveOldest = (LruCache.zeroValue K V, none)
    ∧ (LruCache.zeroValue K V).Len = 0
    ∧ (∀ (k : K) (v : V),
        (LruCache.zeroValue K V).Add k v = (LruCache.new K V 0).Add k v) :=
  ⟨fun _ => rfl, fun _ => rfl, rfl, rfl, fun _ _ => rfl⟩

/-- Equation for Add when the key is already present. -/
theorem LruCache.Add_eq_present {K V : Type} [DecidableEq K]
    {c : LruCache K V} {k : K} {v : V} {ll : List (K × V)} {e : K × V}
    (hll : c.ll = some ll) (hfind : ll.find? (keyIs k) = some e) :
    c.Add k v
      = ({ c with ll := some ((k, v) :: ll.eraseP (keyIs k)) }, none) := by
  unfold LruCache.Add
  rw [hll]
  simp only [Option.getD_some, hfind]

/-- Equation for Add when the key is absent. -/
theorem LruCache.Add_eq_absent {K V : Type} [DecidableEq K]
    {c : LruCache K V} {k : K} {v : V} {ll : List (K × V)}
    (hll : c.ll = some ll) (hfind : ll.find? (keyIs k) = none) :
    c.Add k v =
      (if c.maxEntries ≠ 0 ∧ (((k, v) :: ll).length : Int) > c.maxEntries then
        LruCache.RemoveOldest { c with ll := some ((k, v) :: ll) }
      else ({ c with ll := some ((k, v) :: ll) }, none)) := by
  unfold LruCache.Add
  rw [hll]
  simp only [Option.getD_some, hfind]

/-- Equation for RemoveOldest on a non-empty list. -/
theorem LruCache.RemoveOldest_eq_cons {K V : Type} {c : LruCache K V}
    {x : K × V} {tl : List (K × V)} (hll : c.ll = some (x :: tl)) :
    c.RemoveOldest = ({ c with ll := some ((x :: tl).dropLast) },
      some ((x :: tl).getLast (by simp))) := by
  unfold LruCache.RemoveOldest
  rw [hll]
  simp only [List.getLast?_eq_getLast (x :: tl) (by simp)]

/-- C6: LRU Add. On a present key the value is replaced and the node moved
to the front, the length is unchanged and nothing is evicted; on an absent
key (with a non-negative bound) a new node appears at the front; when
0 < MaxEntries, a cache within its bound stays within its bound; and the
insertion that makes the length exceed the bound evicts exactly the back
(least recently used) entry, keeping the length at MaxEntries. -/
theorem c6_lru_add_semantics {K V : Type} [DecidableEq K]
    (c : LruCache K V) (k : K) (v : V) (ll : List (K × V))
    (hll : c.ll = some ll) :
    (∀ e, ll.find? (keyIs k) = some e →
      (c.Add k v).1.ll = some ((k, v) :: ll.eraseP (keyIs k))
      ∧ (c.Add k v).1.Len = c.Len
      ∧ (c.Add k v).2 = none)
    ∧ (0 ≤ c.maxEntries → ll.find? (keyIs k) = none →
      ∃ tl, (c.Add k v).1.ll = some ((k, v) :: tl))
    ∧ (0 < c.maxEntries → (c.Len : Int) ≤ c.maxEntries →
      ((c.Add k v).1.Len : Int) ≤ c.maxEntries)
    ∧ (0 < c.maxEntries → ll.find? (keyIs k) = none →
      (c.Len : Int) = c.maxEntries →
      (c.Add k v).2 = ll.getLast? ∧ (c.Add k v).1.Len = c.Len) := by
  have hlen : c.Len = ll.length := by
    show (match c.ll with | none => 0 | some l => l.length) = ll.length
    rw [hll]
  constructor
  · -- present key
    intro e hfind
    rw [LruCache.Add_eq_present hll hfind]
    refine ⟨rfl, ?_, rfl⟩
    show ((k, v) :: ll.eraseP (keyIs k)).length = c.Len
    have := List.length_eraseP_add_one (List.mem_of_find?_eq_some hfind)
      (List.find?_some hfind)
    simp only [List.length_cons, hlen]
    omega
  · constructor
    · -- absent key, non-negative bound: new front node
      intro hmax hfind
      rw [LruCache.Add_eq_absent hll hfind]
      by_cases hc : c.maxEntries ≠ 0
          ∧ (((k, v) :: ll).length : Int) > c.maxEntries
      · rw [if_pos hc]
        have hpos : 0 < c.maxEntries := lt_of_le_of_ne hmax (Ne.symm hc.1)
        have hlen2 : 1 ≤ ll.length := by
          have h2 := hc.2
          simp only [List.length_cons] at h2
          by_contra hcon
          have h0 : ll.length = 0 := by omega
          rw [h0] at h2
          push_cast at h2
          omega
        have hne : ll ≠ [] := by
          intro h0; rw [h0] at hlen2; simp at hlen2
        rw [LruCache.RemoveOldest_eq_cons rfl]
        refine ⟨ll.dropLast, ?_⟩
        show some (((k, v) :: ll).dropLast) = _
        rw [List.dropLast_cons_of_ne_nil hne]
      · rw [if_neg hc]
        exact ⟨ll, rfl⟩
    constructor
    · -- bounded cache stays bounded
      intro hpos hbound
      rw [hlen] at hbound
      cases hfind : ll.find? (keyIs k) with
      | some e =>
        rw [LruCache.Add_eq_present hll hfind]
        show (((k, v) :: ll.eraseP (keyIs k)).length : Int) ≤ c.maxEntries
        have := List.length_eraseP_add_one (List.mem_of_find?_eq_some hfind)
          (List.find?_some hfind)
        simp only [List.length_cons]
        push_cast
        omega
      | none =>
        rw [LruCache.Add_eq_absent hll hfind]
        by_cases hc : c.maxEntries ≠ 0
            ∧ (((k, v) :: ll).length : Int) > c.maxEntries
        · rw [if_pos hc]
          rw [LruCache.RemoveOldest_eq_cons rfl]
          have hcons : ((k, v) :: ll).length = ll.length + 1 := by simp
          show ((((k, v) :: ll).dropLast).length : Int) ≤ c.maxEntries
          rw [List.length_dropLast, hcons]
          omega
        · rw [if_neg hc]
          show ((((k, v) :: ll)).length : Int) ≤ c.maxEntries
          rw [not_and_or] at hc
          rcases hc with hc | hc
          · have h0 : c.maxEntries = 0 := by simpa using hc
            omega
          · exact not_lt.mp hc
    · -- the overflowing insertion evicts the back entry
      intro hpos hfind hfull
      rw [hlen] at hfull
      have hne : ll ≠ [] := by
        intro h0
        rw [h0] at hfull
        simp only [List.length_nil, Nat.cast_zero] at hfull
        omega
      have hcond : c.maxEntries ≠ 0
          ∧ (((k, v) :: ll).length : Int) > c.maxEntries := by
        refine ⟨by omega, ?_⟩
        simp only [List.length_cons]
        push_cast
        omega
      rw [LruCache.Add_eq_absent hll hfind, if_pos hcond,
        LruCache.RemoveOldest_eq_cons rfl]
      constructor
      · show some (((k, v) :: ll).getLast (by simp)) = ll.getLast?
        rw [List.getLast_cons hne, List.getLast?_eq_getLast ll hne]
      · show (((k, v) :: ll).dropLast).length = c.Len
        rw [List.length_dropLast, hlen]
        simp

/-- Witness for C6 at a concrete bounded cache: inserting a third distinct
key into a two-entry cache with MaxEntries = 2 evicts the back entry and the
length stays at 2. -/
theorem c6_lru_add_semantics_witness :
    ((LruCache.mk 2 (some [((1 : Nat), (10 : Nat)), (2, 20)])).Add 3 30).2
      = some (2, 20)
    ∧ ((LruCache.mk 2 (some [((1 : Nat), (10 : Nat)), (2, 20)])).Add 3 30).1.Len
      = 2 := by
  have h := (c6_lru_add_semantics
    (LruCache.mk 2 (some [((1 : Nat), (10 : Nat)), (2, 20)])) 3 30
    [(1, 10), (2, 20)] rfl).2.2.2 (by decide) (by decide) (by decide)
  exact ⟨h.1.trans (by decide), h.2.trans (by decide)⟩


/-! ### Byte-accounting lemmas (C2) -/

theorem sumCost_cons (e : String × ByteView) (l : List (String × ByteView)) :
    sumCost (e :: l) = entryCost e.1 e.2 + sumCost l := by
  simp [sumCost]

theorem sumCost_eraseP (k : String) (l : List (String × ByteView))
    (e : String × ByteView) (hfind : l.find? (keyIs k) = some e) :
    sumCost (l.eraseP (keyIs k)) = sumCost l - entryCost e.1 e.2 := by
  induction l with
  | nil => simp at hfind
  | cons x xs ih =>
    by_cases hx : keyIs k x = true
    · rw [List.find?_cons_of_pos _ hx] at hfind
      cases hfind
      rw [List.eraseP_cons_of_pos hx, sumCost_cons]
      omega
    · rw [List.find?_cons_of_neg _ hx] at hfind
      rw [List.eraseP_cons_of_neg hx, sumCost_cons, sumCost_cons, ih hfind]
      omega

theorem sumCost_dropLast (l : List (String × ByteView))
    (e : String × ByteView) (hl : l.getLast? = some e) :
    sumCost l.dropLast = sumCost l - entryCost e.1 e.2 := by
  induction l generalizing e with
  | nil => simp at hl
  | cons x tl ih =>
    cases tl with
    | nil =>
      simp only [List.getLast?_singleton, Option.some.injEq] at hl
      subst hl
      show sumCost [] = sumCost [x] - entryCost x.1 x.2
      simp [sumCost]
    | cons y tl2 =>
      rw [List.getLast?_cons_cons] at hl
      rw [List.dropLast_cons_of_ne_nil (by simp), sumCost_cons, ih e hl]
      simp only [sumCost_cons]
      omega

/-- Equation for Get on a nil inner list. -/
theorem LruCache.Get_eq_nil {K V : Type} [DecidableEq K] {c : LruCache K V}
    {k : K} (hll : c.ll = none) : c.Get k = (c, none) := by
  unfold LruCache.Get
  simp only [hll]

/-- Equation for Get on a miss. -/
theorem LruCache.Get_eq_miss {K V : Type} [DecidableEq K] {c : LruCache K V}
    {k : K} {ll : List (K × V)} (hll : c.ll = some ll)
    (hfind : ll.find? (keyIs k) = none) : c.Get k = (c, none) := by
  unfold LruCache.Get
  simp only [hll, hfind]

/-- Equation for Get on a hit: move to front. -/
theorem LruCache.Get_eq_hit {K V : Type} [DecidableEq K] {c : LruCache K V}
    {k : K} {ll : List (K × V)} {e : K × V} (hll : c.ll = some ll)
    (hfind : ll.find? (keyIs k) = some e) :
    c.Get k = ({ c with ll := some (e :: ll.eraseP (keyIs k)) }, some e.2) := by
  unfold LruCache.Get
  simp only [hll, hfind]

/-- Equation for RemoveOldest on a list with a last element. -/
theorem LruCache.RemoveOldest_eq {K V : Type} {c : LruCache K V}
    {l : List (K × V)} {e : K × V} (hll : c.ll = some l)
    (hlast : l.getLast? = some e) :
    c.RemoveOldest = ({ c with ll := some l.dropLast }, some e) := by
  unfold LruCache.RemoveOldest
  simp only [hll, hlast]

/-- The tier add in terms of the inner engine's result. -/
theorem tier_add_eq (c : TierCache) (k : String) (v : ByteView) :
    c.add k v
      = { applyEvicted { c with lru := some ((c.lru.getD ⟨0, none⟩).Add k v).1 }
            ((c.lru.getD ⟨0, none⟩).Add k v).2 with
          nbytes := (applyEvicted
              { c with lru := some ((c.lru.getD ⟨0, none⟩).Add k v).1 }
              ((c.lru.getD ⟨0, none⟩).Add k v).2).nbytes + entryCost k v } := rfl

/-- The tier get in terms of the inner engine's result. -/
theorem tier_get_eq_some (c : TierCache) (k : String)
    (lru0 : LruCache String ByteView) (hlru : c.lru = some lru0) :
    (c.get k).1 = (match (lru0.Get k).2 with
      | none => { c with nget := c.nget + 1, lru := some (lru0.Get k).1 }
      | some _ =>
        { c with
          nget := c.nget + 1
          lru := some (lru0.Get k).1
          nhit := c.nhit + 1 }) := by
  unfold TierCache.get
  simp only [hlru]
  cases (lru0.Get k).2 <;> rfl

/-- The tier removeOldest in terms of the inner engine's result. -/
theorem tier_removeOldest_eq_some (c : TierCache)
    (lru0 : LruCache String ByteView) (hlru : c.lru = some lru0) :
    c.removeOldest
      = applyEvicted { c with lru := some lru0.RemoveOldest.1 }
          lru0.RemoveOldest.2 := by
  unfold TierCache.removeOldest
  simp only [hlru]

/-- The inner engine's live entries agree with the tier's, through the lazy
initialisation default. -/
theorem tier_lazy_entries (c : TierCache) :
    (c.lru.getD ⟨0, none⟩).ll.getD [] = c.entries := by
  rcases c with ⟨nb, lruC, nh, ng, nev⟩
  cases lruC <;> rfl

/-- Absent-key-add auxiliary lemma on an initialised engine. -/
theorem lru_add_absent_sumCost_aux (me : Int) (ll : List (String × ByteView))
    (k : String) (v : ByteView) (hfind : ll.find? (keyIs k) = none) :
    sumCost (((LruCache.mk me (some ll)).Add k v).1.ll.getD [])
      = sumCost ll + entryCost k v
        - evictedCost ((LruCache.mk me (some ll)).Add k v).2 := by
  rw [LruCache.Add_eq_absent rfl hfind]
  show sumCost ((if me ≠ 0 ∧ (((k, v) :: ll).length : Int) > me then
      LruCache.RemoveOldest (LruCache.mk me (some ((k, v) :: ll)))
    else (LruCache.mk me (some ((k, v) :: ll)), none)).1.ll.getD [])
    = sumCost ll + entryCost k v
      - evictedCost (if me ≠ 0 ∧ (((k, v) :: ll).length : Int) > me then
          LruCache.RemoveOldest (LruCache.mk me (some ((k, v) :: ll)))
        else (LruCache.mk me (some ((k, v) :: ll)), none)).2
  by_cases hc : me ≠ 0 ∧ (((k, v) :: ll).length : Int) > me
  · simp only [if_pos hc]
    obtain ⟨e, he⟩ : ∃ e, ((k, v) :: ll).getLast? = some e :=
      ⟨_, List.getLast?_eq_getLast _ (by simp)⟩
    rw [LruCache.RemoveOldest_eq rfl he]
    simp only [Option.getD_some]
    rw [sumCost_dropLast ((k, v) :: ll) e he, sumCost_cons]
    obtain ⟨e1, e2⟩ := e
    simp only [evictedCost]
    have hkv : entryCost (k, v).1 (k, v).2 = entryCost k v := rfl
    rw [hkv]
    omega
  · simp only [if_neg hc, Option.getD_some, evictedCost]
    rw [sumCost_cons]
    have hkv : entryCost (k, v).1 (k, v).2 = entryCost k v := rfl
    rw [hkv]
    omega

/-- Effect of an absent-key LRU Add on the live-entry cost sum: the new
entry's cost is gained, the evicted entry's (if any) is lost. -/
theorem lru_add_absent_sumCost (lru0 : LruCache String ByteView)
    (k : String) (v : ByteView)
    (hfind : (lru0.ll.getD []).find? (keyIs k) = none) :
    sumCost ((lru0.Add k v).1.ll.getD [])
      = sumCost (lru0.ll.getD []) + entryCost k v
        - evictedCost (lru0.Add k v).2 := by
  obtain ⟨me, mll⟩ := lru0
  cases mll with
  | none =>
    show sumCost (((LruCache.mk me (some [])).Add k v).1.ll.getD [])
      = sumCost ([] : List (String × ByteView)) + entryCost k v
        - evictedCost ((LruCache.mk me (some [])).Add k v).2
    exact lru_add_absent_sumCost_aux me [] k v rfl
  | some ll =>
    show sumCost (((LruCache.mk me (some ll)).Add k v).1.ll.getD [])
      = sumCost ll + entryCost k v
        - evictedCost ((LruCache.mk me (some ll)).Add k v).2
    exact lru_add_absent_sumCost_aux me ll k v (by simpa using hfind)

/-- Effect of an LRU Get on the live-entry cost sum: none. -/
theorem lru_get_sumCost (lru0 : LruCache String ByteView) (k : String) :
    sumCost ((lru0.Get k).1.ll.getD []) = sumCost (lru0.ll.getD []) := by
  cases hll : lru0.ll with
  | none =>
    rw [LruCache.Get_eq_nil hll]
    show sumCost (lru0.ll.getD []) = sumCost (none.getD [])
    rw [hll]
  | some ll =>
    cases hfind : ll.find? (keyIs k) with
    | none =>
      rw [LruCache.Get_eq_miss hll hfind]
      show sumCost (lru0.ll.getD []) = sumCost ((some ll).getD [])
      rw [hll]
    | some e =>
      rw [LruCache.Get_eq_hit hll hfind]
      show sumCost (e :: ll.eraseP (keyIs k)) = sumCost ((some ll).getD [])
      rw [sumCost_cons, sumCost_eraseP k ll e hfind]
      show entryCost e.1 e.2 + (sumCost ll - entryCost e.1 e.2) = sumCost ll
      omega

/-- Effect of an LRU RemoveOldest on the live-entry cost sum: the evicted
entry's cost (if any) is lost. -/
theorem lru_removeOldest_sumCost (lru0 : LruCache String ByteView) :
    sumCost (lru0.RemoveOldest.1.ll.getD [])
      = sumCost (lru0.ll.getD []) - evictedCost lru0.RemoveOldest.2 := by
  obtain ⟨me, mll⟩ := lru0
  cases mll with
  | none =>
    simp [LruCache.RemoveOldest, evictedCost]
  | some ll =>
    cases ll with
    | nil =>
      simp [LruCache.RemoveOldest, evictedCost]
    | cons x tl =>
      obtain ⟨e, he⟩ : ∃ e, (x :: tl).getLast? = some e :=
        ⟨_, List.getLast?_eq_getLast _ (by simp)⟩
      rw [LruCache.RemoveOldest_eq rfl he]
      simp only [Option.getD_some]
      obtain ⟨e1, e2⟩ := e
      simp only [evictedCost]
      exact sumCost_dropLast (x :: tl) (e1, e2) he

/-- A fresh-key tier add preserves the byte-accounting invariant. -/
theorem tier_add_fresh_accounted (c : TierCache) (k : String) (v : ByteView)
    (hacc : c.nbytes = sumCost c.entries)
    (hfresh : c.entries.find? (keyIs k) = none) :
    (c.add k v).nbytes = sumCost (c.add k v).entries := by
  have hfind : ((c.lru.getD ⟨0, none⟩).ll.getD []).find? (keyIs k) = none := by
    rw [tier_lazy_entries]
    exact hfresh
  have hsum := lru_add_absent_sumCost (c.lru.getD ⟨0, none⟩) k v hfind
  rw [tier_lazy_entries] at hsum
  rw [tier_add_eq]
  cases hev : ((c.lru.getD ⟨0, none⟩).Add k v).2 with
  | none =>
    rw [hev] at hsum
    simp only [evictedCost] at hsum
    simp only [applyEvicted, TierCache.entries]
    omega
  | some e =>
    obtain ⟨e1, e2⟩ := e
    rw [hev] at hsum
    simp only [evictedCost] at hsum
    simp only [applyEvicted, TierCache.entries]
    omega

/-- A tier get preserves the byte-accounting invariant. -/
theorem tier_get_accounted (c : TierCache) (k : String)
    (hacc : c.nbytes = sumCost c.entries) :
    (c.get k).1.nbytes = sumCost (c.get k).1.entries := by
  cases hlru : c.lru with
  | none =>
    have h : (c.get k).1 = { c with nget := c.nget + 1 } := by
      unfold TierCache.get
      simp only [hlru]
    rw [h]
    show c.nbytes = sumCost (TierCache.entries { c with nget := c.nget + 1 })
    have hent : TierCache.entries { c with nget := c.nget + 1 } = c.entries := by
      simp [TierCache.entries]
    rw [hent]
    exact hacc
  | some lru0 =>
    rw [tier_get_eq_some c k lru0 hlru]
    have hsum := lru_get_sumCost lru0 k
    have hent : c.entries = lru0.ll.getD [] := by
      simp [TierCache.entries, hlru]
    cases (lru0.Get k).2 with
    | none =>
      show c.nbytes
        = sumCost (TierCache.entries
          { c with nget := c.nget + 1, lru := some (lru0.Get k).1 })
      simp only [TierCache.entries]
      rw [hsum, ← hent]
      exact hacc
    | some vi =>
      show c.nbytes
        = sumCost (TierCache.entries
          { c with
            nget := c.nget + 1
            lru := some (lru0.Get k).1
            nhit := c.nhit + 1 })
      simp only [TierCache.entries]
      rw [hsum, ← hent]
      exact hacc

/-- A tier removeOldest preserves the byte-accounting invariant. -/
theorem tier_removeOldest_accounted (c : TierCache)
    (hacc : c.nbytes = sumCost c.entries) :
    c.removeOldest.nbytes = sumCost c.removeOldest.entries := by
  cases hlru : c.lru with
  | none =>
    have h : c.removeOldest = c := by
      unfold TierCache.removeOldest
      simp only [hlru]
    rw [h]
    exact hacc
  | some lru0 =>
    rw [tier_removeOldest_eq_some c lru0 hlru]
    have hsum := lru_removeOldest_sumCost lru0
    have hent : c.entries = lru0.ll.getD [] := by
      simp [TierCache.entries, hlru]
    cases hev : lru0.RemoveOldest.2 with
    | none =>
      rw [hev] at hsum
      simp only [evictedCost] at hsum
      simp only [applyEvicted, TierCache.entries]
      rw [hsum, ← hent]
      omega
    | some e =>
      obtain ⟨e1, e2⟩ := e
      rw [hev] at hsum
      simp only [evictedCost] at hsum
      simp only [applyEvicted, TierCache.entries]
      rw [hsum, ← hent]
      omega

/-- C2 as stated is false on the code: adding a key that is already present
double-counts its cost; after two adds of the same 1-byte key and 1-byte
value, nbytes is 4 while the live entries cost 2. -/
theorem c2_counterexample_double_add :
    ((TierCache.zeroValue.add "k" ⟨some [97], []⟩).add "k"
        ⟨some [97], []⟩).nbytes
      ≠ sumCost ((TierCache.zeroValue.add "k" ⟨some [97], []⟩).add "k"
        ⟨some [97], []⟩).entries := by
  decide

/-- C2 amended: for every sequence of add, get and removeOldest operations
in which every add's key is absent at the time of the add, a tier whose byte
counter matches its live-entry cost sum keeps that property: nbytes equals
the sum of len(key) + len(value) over the live entries (the eviction
callback decrementing nbytes by exactly the evicted entry's cost). -/
theorem c2_amended_fresh_adds_accounting (c : TierCache) (ops : List TierOp)
    (hacc : c.nbytes = sumCost c.entries) (hfresh : FreshAdds c ops) :
    (c.execSeq ops).nbytes = sumCost (c.execSeq ops).entries := by
  induction hfresh with
  | nil c => exact hacc
  | add c k v ops habs _ ih =>
    exact ih (tier_add_fresh_accounted c k v hacc habs)
  | get c k ops _ ih =>
    exact ih (tier_get_accounted c k hacc)
  | removeOldest c ops _ ih =>
    exact ih (tier_removeOldest_accounted c hacc)

/-- Witness for the amended C2 on a concrete fresh-adds trace. -/
theorem c2_amended_fresh_adds_accounting_witness :
    (TierCache.zeroValue.execSeq
        [TierOp.add "a" ⟨some [97], []⟩, TierOp.get "a",
         TierOp.removeOldest]).nbytes
      = sumCost (TierCache.zeroValue.execSeq
        [TierOp.add "a" ⟨some [97], []⟩, TierOp.get "a",
         TierOp.removeOldest]).entries := by
  exact c2_amended_fresh_adds_accounting TierCache.zeroValue _ rfl
    (FreshAdds.add _ _ _ _ (by decide)
      (FreshAdds.get _ _ _ (FreshAdds.removeOldest _ _ (FreshAdds.nil _))))


/-! ### Byte-budget and eviction-sweep theorems (C1, C4) -/

/-- Any state the eviction loop returns satisfies the byte budget. -/
theorem evictLoop_le (B : Int) :
    ∀ (fuel : Nat) (s s' : TierCache × TierCache),
      evictLoop B fuel s = some s' → s'.1.bytes + s'.2.bytes ≤ B := by
  intro fuel
  induction fuel with
  | zero =>
    intro s s' h
    simp [evictLoop] at h
  | succ k ih =>
    intro s s' h
    simp only [evictLoop] at h
    by_cases hle : s.1.bytes + s.2.bytes ≤ B
    · rw [if_pos hle] at h
      cases h
      exact hle
    · rw [if_neg hle] at h
      exact ih _ _ h

/-- C1: for a group with byte budget B > 0, whenever populateCache returns,
the main and hot tiers' combined byte total is at most B (and Get populates
only through populateCache). -/
theorem c1_byte_budget_invariant (g : Group) (key : String) (value : ByteView)
    (which : WhichCache) (fuel : Nat) (g1 : Group)
    (hB : 0 < g.cacheBytes)
    (h : g.populateCache key value which fuel = some g1) :
    g1.mainCache.bytes + g1.hotCache.bytes ≤ g.cacheBytes := by
  unfold Group.populateCache at h
  rw [if_neg (by omega)] at h
  rw [Option.map_eq_some'] at h
  obtain ⟨s, hs, hg⟩ := h
  have hle := evictLoop_le g.cacheBytes fuel _ s hs
  rw [← hg]
  exact hle

/-- Witness for C1 at a concrete group: budget 1, the freshly added entry of
cost 2 is immediately evicted and the bound holds. -/
theorem c1_byte_budget_invariant_witness :
    ∃ g1 : Group,
      (Group.mk 1 TierCache.zeroValue TierCache.zeroValue
          Stats.zero).populateCache "k" ⟨some [97], []⟩ WhichCache.main 2
        = some g1
      ∧ g1.mainCache.bytes + g1.hotCache.bytes ≤ 1 := by
  refine ⟨_, rfl, ?_⟩
  exact c1_byte_budget_invariant
    (Group.mk 1 TierCache.zeroValue TierCache.zeroValue Stats.zero) "k"
    ⟨some [97], []⟩ WhichCache.main 2 _ (by decide) rfl

/-- The eviction loop's result is the first evictOnce-iterate whose combined
bytes fit the budget. -/
theorem evictLoop_characterisation (B : Int) :
    ∀ (fuel : Nat) (s s' : TierCache × TierCache),
      evictLoop B fuel s = some s' →
      ∃ n : Nat, s' = evictOnce^[n] s
        ∧ s'.1.bytes + s'.2.bytes ≤ B
        ∧ ∀ m : Nat, m < n →
          (evictOnce^[m] s).1.bytes + (evictOnce^[m] s).2.bytes > B := by
  intro fuel
  induction fuel with
  | zero =>
    intro s s' h
    simp [evictLoop] at h
  | succ k ih =>
    intro s s' h
    simp only [evictLoop] at h
    by_cases hle : s.1.bytes + s.2.bytes ≤ B
    · rw [if_pos hle] at h
      cases h
      refine ⟨0, by simp, hle, ?_⟩
      intro m hm
      exact absurd hm (Nat.not_lt_zero m)
    · rw [if_neg hle] at h
      obtain ⟨n, h1, h2, h3⟩ := ih (evictOnce s) s' h
      refine ⟨n + 1, ?_, h2, ?_⟩
      · rw [Function.iterate_succ_apply]
        exact h1
      · intro m hm
        cases m with
        | zero =>
          simpa using (by omega : s.1.bytes + s.2.bytes > B)
        | succ m2 =>
          rw [Function.iterate_succ_apply]
          exact h3 m2 (by omega)

/-- C4: populateCache is a no-op when B ≤ 0; when B > 0 and the sweep
returns, the final tiers are an iterate of the one-step eviction rule
(victim = hot tier iff hotBytes > mainBytes/8, truncated division) starting
from the tiers after the add, the result fits the budget and every earlier
iterate exceeded it. -/
theorem c4_eviction_sweep_shape (g : Group) (key : String) (value : ByteView)
    (which : WhichCache) (fuel : Nat) :
    (g.cacheBytes ≤ 0 → g.populateCache key value which fuel = some g)
    ∧ (∀ g1 : Group, 0 < g.cacheBytes →
      g.populateCache key value which fuel = some g1 →
      ∃ n : Nat,
        (g1.mainCache, g1.hotCache) = evictOnce^[n] (g.tierAdd key value which)
        ∧ g1.mainCache.bytes + g1.hotCache.bytes ≤ g.cacheBytes
        ∧ ∀ m : Nat, m < n →
          (evictOnce^[m] (g.tierAdd key value which)).1.bytes
            + (evictOnce^[m] (g.tierAdd key value which)).2.bytes
            > g.cacheBytes) := by
  constructor
  · intro hB0
    unfold Group.populateCache
    rw [if_pos hB0]
  · intro g1 hB h
    unfold Group.populateCache at h
    rw [if_neg (by omega)] at h
    rw [Option.map_eq_some'] at h
    obtain ⟨s, hs, hg⟩ := h
    obtain ⟨n, h1, h2, h3⟩ :=
      evictLoop_characterisation g.cacheBytes fuel _ s hs
    refine ⟨n, ?_, ?_, h3⟩
    · rw [← hg]
      show (s.1, s.2) = evictOnce^[n] (g.tierAdd key value which)
      rw [Prod.mk.eta]
      exact h1
    · rw [← hg]
      exact h2

/-- Witness for C4: the no-op conjunct at budget 0, and the sweep-shape
conjunct at budget 1 where the added entry is evicted after one step. -/
theorem c4_eviction_sweep_shape_witness :
    ((Group.mk 0 TierCache.zeroValue TierCache.zeroValue
        Stats.zero).populateCache "k" ⟨some [97], []⟩ WhichCache.main 3
      = some (Group.mk 0 TierCache.zeroValue TierCache.zeroValue Stats.zero))
    ∧ ∃ g1 : Group,
      (Group.mk 1 TierCache.zeroValue TierCache.zeroValue
          Stats.zero).populateCache "k" ⟨some [97], []⟩ WhichCache.main 2
        = some g1
      ∧ ∃ n : Nat,
        (g1.mainCache, g1.hotCache)
          = evictOnce^[n] ((Group.mk 1 TierCache.zeroValue TierCache.zeroValue
              Stats.zero).tierAdd "k" ⟨some [97], []⟩ WhichCache.main)
        ∧ g1.mainCache.bytes + g1.hotCache.bytes ≤ 1
        ∧ ∀ m : Nat, m < n →
          (evictOnce^[m] ((Group.mk 1 TierCache.zeroValue TierCache.zeroValue
              Stats.zero).tierAdd "k" ⟨some [97], []⟩ WhichCache.main)).1.bytes
            + (evictOnce^[m] ((Group.mk 1 TierCache.zeroValue
                TierCache.zeroValue Stats.zero).tierAdd "k" ⟨some [97], []⟩
                  WhichCache.main)).2.bytes > 1 := by
  constructor
  · exact (c4_eviction_sweep_shape
      (Group.mk 0 TierCache.zeroValue TierCache.zeroValue Stats.zero) "k"
      ⟨some [97], []⟩ WhichCache.main 3).1 (by decide)
  · refine ⟨_, rfl, ?_⟩
    exact (c4_eviction_sweep_shape
      (Group.mk 1 TierCache.zeroValue TierCache.zeroValue Stats.zero) "k"
      ⟨some [97], []⟩ WhichCache.main 2).2 _ (by decide) rfl



/-! ### Load-path lemmas and theorems (C5, C8) -/

/-- Full tier get equation on an initialised inner engine. -/
theorem tier_get_eq (c : TierCache) (k : String)
    (lru0 : LruCache String ByteView) (hlru : c.lru = some lru0) :
    c.get k = (match (lru0.Get k).2 with
      | none => ({ c with nget := c.nget + 1, lru := some (lru0.Get k).1 }, none)
      | some vi =>
        ({ c with
           nget := c.nget + 1
           lru := some (lru0.Get k).1
           nhit := c.nhit + 1 }, some vi)) := by
  unfold TierCache.get
  simp only [hlru]

/-- An LRU Get that misses leaves the engine unchanged. -/
theorem lru_get_miss_fst {K V : Type} [DecidableEq K] (c : LruCache K V)
    (k : K) (h : (c.Get k).2 = none) : (c.Get k).1 = c := by
  cases hll : c.ll with
  | none => rw [LruCache.Get_eq_nil hll]
  | some ll =>
    cases hfind : ll.find? (keyIs k) with
    | none => rw [LruCache.Get_eq_miss hll hfind]
    | some e =>
      rw [LruCache.Get_eq_hit hll hfind] at h
      simp at h

/-- A tier get that misses only bumps the get counter. -/
theorem tier_get_miss_eq (c : TierCache) (k : String)
    (hmiss : (c.get k).2 = none) :
    (c.get k).1 = { c with nget := c.nget + 1 } := by
  cases hlru : c.lru with
  | none =>
    unfold TierCache.get
    simp only [hlru]
  | some lru0 =>
    rw [tier_get_eq c k lru0 hlru] at hmiss ⊢
    cases h2 : (lru0.Get k).2 with
    | some vi =>
      simp only [h2] at hmiss
      simp at hmiss
    | none =>
      have hfst : (lru0.Get k).1 = lru0 := lru_get_miss_fst lru0 k h2
      show { c with nget := c.nget + 1, lru := some (lru0.Get k).1 }
        = { c with nget := c.nget + 1, lru := some lru0 }
      rw [hfst]

/-- lookupCache on a double miss (positive budget): both probes bump their
get counters and the result is a miss. -/
theorem lookupCache_miss_pos (g : Group) (key : String)
    (hB : 0 < g.cacheBytes)
    (hmain : (g.mainCache.get key).2 = none)
    (hhot : (g.hotCache.get key).2 = none) :
    g.lookupCache key
      = ({ g with
           mainCache := (g.mainCache.get key).1
           hotCache := (g.hotCache.get key).1 }, none) := by
  unfold Group.lookupCache
  rw [if_neg (by omega)]
  simp only [hmain, hhot]

/-- loadLocally surfaces the loader's error unchanged, counting it. -/
theorem loadLocally_error (g : Group) (key : String) (e : String)
    (fuel : Nat) :
    g.loadLocally key (.error e) fuel
      = some ({ g with stats := { g.stats with
          localLoadErrs := g.stats.localLoadErrs + 1 } }, .error e) := rfl

/-- getFromPeer on transport success with a non-firing sample returns the
wrapped view and leaves the group untouched. -/
theorem getFromPeer_ok_noSample (g : Group) (key : String)
    (resValue : Option Bytes) (rnd : Nat) (fuel : Nat) (hrnd : rnd ≠ 0) :
    g.getFromPeer key (.ok resValue) rnd fuel
      = some (g, .ok ⟨resValue, []⟩) := by
  show (if rnd = 0 then
      Option.map (fun g1 => (g1, Except.ok (⟨resValue, []⟩ : ByteView)))
        (g.populateCache key ⟨resValue, []⟩ WhichCache.hot fuel)
    else some (g, Except.ok ⟨resValue, []⟩))
    = some (g, Except.ok ⟨resValue, []⟩)
  rw [if_neg hrnd]

/-- getFromPeer on transport success with the sample firing
(rand.Intn(10) = 0): populate the hot tier and return the wrapped view. -/
theorem getFromPeer_ok_sample (g : Group) (key : String)
    (resValue : Option Bytes) (fuel : Nat) :
    g.getFromPeer key (.ok resValue) 0 fuel
      = (g.populateCache key ⟨resValue, []⟩ WhichCache.hot fuel).map
          (fun gp => (gp, Except.ok ⟨resValue, []⟩)) := by
  show (if (0 : Nat) = 0 then
      Option.map (fun gp => (gp, Except.ok (⟨resValue, []⟩ : ByteView)))
        (g.populateCache key ⟨resValue, []⟩ WhichCache.hot fuel)
    else some (g, Except.ok ⟨resValue, []⟩))
    = Option.map (fun gp => (gp, Except.ok (⟨resValue, []⟩ : ByteView)))
        (g.populateCache key ⟨resValue, []⟩ WhichCache.hot fuel)
  rw [if_pos rfl]

/-- lookupCache on a non-positive budget: unconditional miss, nothing
touched. -/
theorem lookupCache_nonpos (g : Group) (key : String)
    (hB : g.cacheBytes ≤ 0) : g.lookupCache key = (g, none) := by
  unfold Group.lookupCache
  rw [if_pos hB]

/-- populateCache never changes the stats or the budget. -/
theorem populateCache_stats (g : Group) (key : String) (value : ByteView)
    (which : WhichCache) (fuel : Nat) (g1 : Group)
    (h : g.populateCache key value which fuel = some g1) :
    g1.stats = g.stats ∧ g1.cacheBytes = g.cacheBytes := by
  unfold Group.populateCache at h
  by_cases hB : g.cacheBytes ≤ 0
  · rw [if_pos hB] at h
    cases h
    exact ⟨rfl, rfl⟩
  · rw [if_neg hB] at h
    rw [Option.map_eq_some'] at h
    obtain ⟨s, hs, hg⟩ := h
    rw [← hg]
    exact ⟨rfl, rfl⟩

/-- RemoveOldest leaves the engine's entry list a prefix of what it was. -/
theorem lru_removeOldest_ll_initSeg (lru0 : LruCache String ByteView) :
    List.IsPrefix (lru0.RemoveOldest.1.ll.getD []) (lru0.ll.getD []) := by
  obtain ⟨me, mll⟩ := lru0
  cases mll with
  | none => exact List.prefix_refl _
  | some ll =>
    cases ll with
    | nil =>
      have h : (LruCache.mk (K := String) (V := ByteView) me
          (some [])).RemoveOldest = (⟨me, some []⟩, none) := by
        unfold LruCache.RemoveOldest
        simp
      rw [h]
    | cons x tl =>
      obtain ⟨e, he⟩ : ∃ e, (x :: tl).getLast? = some e :=
        ⟨_, List.getLast?_eq_getLast _ (by simp)⟩
      rw [LruCache.RemoveOldest_eq rfl he]
      simp only [Option.getD_some]
      exact List.dropLast_prefix _

/-- A tier removeOldest leaves the live entries a prefix of what they
were. -/
theorem tier_removeOldest_entries_initSeg (c : TierCache) :
    List.IsPrefix c.removeOldest.entries c.entries := by
  cases hlru : c.lru with
  | none =>
    have h : c.removeOldest = c := by
      unfold TierCache.removeOldest
      simp only [hlru]
    rw [h]
  | some lru0 =>
    rw [tier_removeOldest_eq_some c lru0 hlru]
    have hent : c.entries = lru0.ll.getD [] := by
      simp [TierCache.entries, hlru]
    rw [hent]
    have hpre := lru_removeOldest_ll_initSeg lru0
    cases hev : lru0.RemoveOldest.2 with
    | none =>
      simp only [applyEvicted, TierCache.entries]
      exact hpre
    | some e =>
      obtain ⟨e1, e2⟩ := e
      simp only [applyEvicted, TierCache.entries]
      exact hpre

/-- One eviction step leaves the main tier's entries a prefix of what they
were. -/
theorem evictOnce_main_initSeg (s : TierCache × TierCache) :
    List.IsPrefix (evictOnce s).1.entries s.1.entries := by
  unfold evictOnce
  by_cases hc : s.2.bytes > Int.tdiv s.1.bytes 8
  · rw [if_pos hc]
  · rw [if_neg hc]
    exact tier_removeOldest_entries_initSeg s.1

/-- The whole eviction loop leaves the main tier's entries a prefix of what
they were at loop entry. -/
theorem evictLoop_main_initSeg (B : Int) :
    ∀ (fuel : Nat) (s s' : TierCache × TierCache),
      evictLoop B fuel s = some s' →
      List.IsPrefix s'.1.entries s.1.entries := by
  intro fuel
  induction fuel with
  | zero =>
    intro s s' h
    simp [evictLoop] at h
  | succ k ih =>
    intro s s' h
    simp only [evictLoop] at h
    by_cases hle : s.1.bytes + s.2.bytes ≤ B
    · rw [if_pos hle] at h
      cases h
      exact List.prefix_refl _
    · rw [if_neg hle] at h
      exact (ih _ _ h).trans (evictOnce_main_initSeg s)

/-- Populating the hot tier never adds to the main tier: the main tier's
entries end up a prefix (oldest-eviction only) of what they were. -/
theorem populateCache_hot_main_initSeg (g : Group) (key : String)
    (value : ByteView) (fuel : Nat) (g1 : Group)
    (h : g.populateCache key value WhichCache.hot fuel = some g1) :
    List.IsPrefix g1.mainCache.entries g.mainCache.entries := by
  unfold Group.populateCache at h
  by_cases hB : g.cacheBytes ≤ 0
  · rw [if_pos hB] at h
    cases h
    exact List.prefix_refl _
  · rw [if_neg hB] at h
    rw [Option.map_eq_some'] at h
    obtain ⟨s, hs, hg⟩ := h
    have hpre := evictLoop_main_initSeg g.cacheBytes fuel _ s hs
    rw [← hg]
    exact hpre

/-- A tier get that misses means the key is absent from the live entries. -/
theorem tier_get_miss_find? (c : TierCache) (k : String)
    (hmiss : (c.get k).2 = none) :
    c.entries.find? (keyIs k) = none := by
  cases hlru : c.lru with
  | none =>
    show (TierCache.entries c).find? (keyIs k) = none
    simp [TierCache.entries, hlru]
  | some lru0 =>
    have hent : c.entries = lru0.ll.getD [] := by
      simp [TierCache.entries, hlru]
    rw [hent]
    cases hll : lru0.ll with
    | none => simp
    | some ll =>
      simp only [Option.getD_some]
      cases hfind : ll.find? (keyIs k) with
      | none => rfl
      | some e =>
        rw [tier_get_eq c k lru0 hlru] at hmiss
        simp only [LruCache.Get_eq_hit hll hfind] at hmiss
        simp at hmiss

/-- A prefix of a list without a match has no match either. -/
theorem find?_none_of_prefix {α : Type} (p : α → Bool) {l1 l2 : List α}
    (hpre : List.IsPrefix l1 l2) (h : l2.find? p = none) :
    l1.find? p = none := by
  rw [List.find?_eq_none] at h ⊢
  intro x hx
  exact h x (hpre.subset hx)

/-- C5 fails as stated: a load that succeeds via a peer fetch whose 1-in-10
sample fires (rand.Intn(10) = 0) populates the hot tier, so the hot tier
does change. -/
theorem c5_counterexample_hot_population :
    ∃ g1 : Group,
      (Group.mk 100 TierCache.zeroValue TierCache.zeroValue Stats.zero).load
          "k" true (.ok (some [118])) 0 (.error "e") 1
        = some (g1, .ok (⟨some [118], []⟩, false))
      ∧ g1.hotCache.entries ≠ TierCache.zeroValue.entries := by
  refine ⟨_, rfl, by decide⟩

/-- C5 amended: whenever a load through a picked remote peer with a
successful transport returns (for any budget and any drawn sample), it
returns the fetched view with destPopulated false, increments peerLoads,
and does not populate the main tier (its entries only ever shrink by
oldest-eviction and never contain the key); when the sample does not fire,
or the budget is non-positive, neither tier's contents change; when the
sample fires on a positive budget, the final tiers are exactly those of the
hot-tier populateCache call (with its eviction sweep). -/
theorem c5_amended_peer_load (g : Group) (key : String)
    (resValue : Option Bytes) (rnd : Nat)
    (localResult : Except String ByteView) (fuel : Nat)
    (g1 : Group) (r : Except String (ByteView × Bool))
    (hmain : (g.mainCache.get key).2 = none)
    (hhot : (g.hotCache.get key).2 = none)
    (h : g.load key true (.ok resValue) rnd localResult fuel
      = some (g1, r)) :
    r = .ok (⟨resValue, []⟩, false)
    ∧ g1.stats.peerLoads = g.stats.peerLoads + 1
    ∧ List.IsPrefix g1.mainCache.entries g.mainCache.entries
    ∧ g1.mainCache.entries.find? (keyIs key) = none
    ∧ (rnd ≠ 0 →
        g1.mainCache.entries = g.mainCache.entries
        ∧ g1.mainCache.nbytes = g.mainCache.nbytes
        ∧ g1.hotCache.entries = g.hotCache.entries
        ∧ g1.hotCache.nbytes = g.hotCache.nbytes)
    ∧ (rnd = 0 → g.cacheBytes ≤ 0 →
        g1.mainCache.entries = g.mainCache.entries
        ∧ g1.hotCache.entries = g.hotCache.entries)
    ∧ (rnd = 0 → 0 < g.cacheBytes →
        ∃ gp : Group,
          ({ g with
              mainCache := (g.mainCache.get key).1
              hotCache := (g.hotCache.get key).1
              stats := { g.stats with
                loads := g.stats.loads + 1
                loadsDeduped := g.stats.loadsDeduped + 1 } }).populateCache
            key ⟨resValue, []⟩ WhichCache.hot fuel = some gp
          ∧ g1.mainCache = gp.mainCache ∧ g1.hotCache = gp.hotCache) := by
  by_cases hB : g.cacheBytes ≤ 0
  · -- non-positive budget: the probe and the populate are both no-ops
    have hprobe := lookupCache_nonpos
      { g with stats := { g.stats with loads := g.stats.loads + 1 } } key
      hB
    have h1 : ({ g with stats := { g.stats with
        loads := g.stats.loads + 1
        loadsDeduped := g.stats.loadsDeduped + 1 } }).getFromPeer key
          (.ok resValue) rnd fuel
        = some ({ g with stats := { g.stats with
            loads := g.stats.loads + 1
            loadsDeduped := g.stats.loadsDeduped + 1 } },
          .ok ⟨resValue, []⟩) := by
      by_cases hrnd : rnd = 0
      · subst hrnd
        have hpop : ({ g with stats := { g.stats with
            loads := g.stats.loads + 1
            loadsDeduped := g.stats.loadsDeduped + 1 } }).populateCache key
              ⟨resValue, []⟩ WhichCache.hot fuel
            = some { g with stats := { g.stats with
                loads := g.stats.loads + 1
                loadsDeduped := g.stats.loadsDeduped + 1 } } := by
          unfold Group.populateCache
          rw [if_pos hB]
        rw [getFromPeer_ok_sample, hpop]
        rfl
      · exact getFromPeer_ok_noSample _ key resValue rnd fuel hrnd
    have hload : g.load key true (.ok resValue) rnd localResult fuel
        = some ({ g with stats := { g.stats with
            loads := g.stats.loads + 1
            loadsDeduped := g.stats.loadsDeduped + 1
            peerLoads := g.stats.peerLoads + 1 } },
          .ok (⟨resValue, []⟩, false)) := by
      unfold Group.load
      simp only [hprobe, h1, if_true]
    rw [hload] at h
    injection h with hpair
    have hg : ({ g with stats := { g.stats with
        loads := g.stats.loads + 1
        loadsDeduped := g.stats.loadsDeduped + 1
        peerLoads := g.stats.peerLoads + 1 } } : Group) = g1 :=
      congrArg Prod.fst hpair
    have hr : (Except.ok (⟨resValue, []⟩, false) :
        Except String (ByteView × Bool)) = r := congrArg Prod.snd hpair
    subst hg
    subst hr
    refine ⟨rfl, rfl, List.prefix_refl _,
      tier_get_miss_find? g.mainCache key hmain, ?_, ?_, ?_⟩
    · intro _
      exact ⟨rfl, rfl, rfl, rfl⟩
    · intro _ _
      exact ⟨rfl, rfl⟩
    · intro _ hpos
      exact absurd hpos (by omega)
  · -- positive budget
    have hBpos : 0 < g.cacheBytes := by omega
    have hprobe := lookupCache_miss_pos
      { g with stats := { g.stats with loads := g.stats.loads + 1 } } key
      hBpos hmain hhot
    have hMent : ((g.mainCache.get key).1).entries = g.mainCache.entries := by
      rw [tier_get_miss_eq g.mainCache key hmain]
      simp [TierCache.entries]
    have hMb : ((g.mainCache.get key).1).nbytes = g.mainCache.nbytes := by
      rw [tier_get_miss_eq g.mainCache key hmain]
    have hHent : ((g.hotCache.get key).1).entries = g.hotCache.entries := by
      rw [tier_get_miss_eq g.hotCache key hhot]
      simp [TierCache.entries]
    have hHb : ((g.hotCache.get key).1).nbytes = g.hotCache.nbytes := by
      rw [tier_get_miss_eq g.hotCache key hhot]
    by_cases hrnd : rnd = 0
    · subst hrnd
      have h1 := getFromPeer_ok_sample
        { g with
          mainCache := (g.mainCache.get key).1
          hotCache := (g.hotCache.get key).1
          stats := { g.stats with
            loads := g.stats.loads + 1
            loadsDeduped := g.stats.loadsDeduped + 1 } }
        key resValue fuel
      unfold Group.load at h
      simp only [hprobe, h1, if_true] at h
      cases hpop : ({ g with
          mainCache := (g.mainCache.get key).1
          hotCache := (g.hotCache.get key).1
          stats := { g.stats with
            loads := g.stats.loads + 1
            loadsDeduped := g.stats.loadsDeduped + 1 } }).populateCache key
              ⟨resValue, []⟩ WhichCache.hot fuel with
      | none =>
        rw [hpop] at h
        simp at h
      | some gp =>
        rw [hpop] at h
        simp only [Option.map_some'] at h
        injection h with hpair
        have hg : ({ gp with stats := { gp.stats with
            peerLoads := gp.stats.peerLoads + 1 } } : Group) = g1 :=
          congrArg Prod.fst hpair
        have hr : (Except.ok (⟨resValue, []⟩, false) :
            Except String (ByteView × Bool)) = r := congrArg Prod.snd hpair
        subst hg
        subst hr
        have hst := (populateCache_stats _ key ⟨resValue, []⟩ WhichCache.hot
          fuel gp hpop).1
        have hpl : gp.stats.peerLoads = g.stats.peerLoads := by
          rw [hst]
        have hpre0 : List.IsPrefix gp.mainCache.entries
            ((g.mainCache.get key).1).entries :=
          populateCache_hot_main_initSeg _ key ⟨resValue, []⟩ fuel gp hpop
        have hpre1 : List.IsPrefix gp.mainCache.entries
            g.mainCache.entries := by
          rw [← hMent]
          exact hpre0
        refine ⟨rfl, ?_, hpre1, ?_, ?_, ?_, ?_⟩
        · show gp.stats.peerLoads + 1 = g.stats.peerLoads + 1
          rw [hpl]
        · exact find?_none_of_prefix (keyIs key) hpre1
            (tier_get_miss_find? g.mainCache key hmain)
        · intro hne
          exact absurd rfl hne
        · intro _ h0
          exact absurd h0 hB
        · intro _ _
          exact ⟨gp, rfl, rfl, rfl⟩
    · have h1 := getFromPeer_ok_noSample
        { g with
          mainCache := (g.mainCache.get key).1
          hotCache := (g.hotCache.get key).1
          stats := { g.stats with
            loads := g.stats.loads + 1
            loadsDeduped := g.stats.loadsDeduped + 1 } }
        key resValue rnd fuel hrnd
      have hload : g.load key true (.ok resValue) rnd localResult fuel
          = some ({ g with
              mainCache := (g.mainCache.get key).1
              hotCache := (g.hotCache.get key).1
              stats := { g.stats with
                loads := g.stats.loads + 1
                loadsDeduped := g.stats.loadsDeduped + 1
                peerLoads := g.stats.peerLoads + 1 } },
            .ok (⟨resValue, []⟩, false)) := by
        unfold Group.load
        simp only [hprobe, h1, if_true]
      rw [hload] at h
      injection h with hpair
      have hg : ({ g with
          mainCache := (g.mainCache.get key).1
          hotCache := (g.hotCache.get key).1
          stats := { g.stats with
            loads := g.stats.loads + 1
            loadsDeduped := g.stats.loadsDeduped + 1
            peerLoads := g.stats.peerLoads + 1 } } : Group) = g1 :=
        congrArg Prod.fst hpair
      have hr : (Except.ok (⟨resValue, []⟩, false) :
          Except String (ByteView × Bool)) = r := congrArg Prod.snd hpair
      subst hg
      subst hr
      refine ⟨rfl, rfl, ?_, ?_, ?_, ?_, ?_⟩
      · show List.IsPrefix ((g.mainCache.get key).1).entries
          g.mainCache.entries
        rw [hMent]
      · show ((g.mainCache.get key).1).entries.find? (keyIs key) = none
        rw [hMent]
        exact tier_get_miss_find? g.mainCache key hmain
      · intro _
        exact ⟨hMent, hMb, hHent, hHb⟩
      · intro h0
        exact absurd h0 hrnd
      · intro h0
        exact absurd h0 hrnd

/-- Witness for the amended C5 at a concrete group with a non-firing
sample. -/
theorem c5_amended_peer_load_witness :
    ∃ (g1 : Group) (r : Except String (ByteView × Bool)),
      (Group.mk 100 TierCache.zeroValue TierCache.zeroValue Stats.zero).load
          "k" true (.ok (some [118])) 1 (.error "e") 1 = some (g1, r)
      ∧ r = .ok (⟨some [118], []⟩, false)
      ∧ g1.stats.peerLoads = Stats.zero.peerLoads + 1
      ∧ g1.hotCache.entries = TierCache.zeroValue.entries := by
  refine ⟨_, _, rfl, ?_, ?_, ?_⟩
  · exact (c5_amended_peer_load
      (Group.mk 100 TierCache.zeroValue TierCache.zeroValue Stats.zero) "k"
      (some [118]) 1 (.error "e") 1 _ _ (by decide) (by decide) rfl).1
  · exact (c5_amended_peer_load
      (Group.mk 100 TierCache.zeroValue TierCache.zeroValue Stats.zero) "k"
      (some [118]) 1 (.error "e") 1 _ _ (by decide) (by decide) rfl).2.1
  · exact ((c5_amended_peer_load
      (Group.mk 100 TierCache.zeroValue TierCache.zeroValue Stats.zero) "k"
      (some [118]) 1 (.error "e") 1 _ _ (by decide) (by decide)
      rfl).2.2.2.2.1 (by decide)).2.2.1

/-- C8: whenever the user loader returns an error on the local-load path
(no cache hit on the re-probe, and either no remote peer was picked or the
peer fetch failed), load increments localLoadErrs, surfaces the same error
unchanged, and populates neither tier: both tiers' contents and byte totals
are unchanged. -/
theorem c8_loader_error_no_caching (g : Group) (key : String) (rnd : Nat)
    (fuel : Nat) (e : String) (pick : Bool)
    (peerResult : Except String (Option Bytes))
    (hmain : (g.mainCache.get key).2 = none)
    (hhot : (g.hotCache.get key).2 = none)
    (hpeer : pick = false ∨ ∃ pe, peerResult = Except.error pe) :
    ∃ g1 : Group,
      g.load key pick peerResult rnd (.error e) fuel = some (g1, .error e)
      ∧ g1.stats.localLoadErrs = g.stats.localLoadErrs + 1
      ∧ g1.mainCache.entries = g.mainCache.entries
      ∧ g1.mainCache.nbytes = g.mainCache.nbytes
      ∧ g1.hotCache.entries = g.hotCache.entries
      ∧ g1.hotCache.nbytes = g.hotCache.nbytes := by
  by_cases hB : g.cacheBytes ≤ 0
  · -- non-positive budget: the re-probe is an unconditional miss and the
    -- tiers are untouched; the loader's error is still surfaced and counted
    have hprobe := lookupCache_nonpos
      { g with stats := { g.stats with loads := g.stats.loads + 1 } } key
      hB
    cases pick with
    | false =>
      refine ⟨{ g with stats := { g.stats with
          loads := g.stats.loads + 1
          loadsDeduped := g.stats.loadsDeduped + 1
          localLoadErrs := g.stats.localLoadErrs + 1 } },
        ?_, rfl, rfl, rfl, rfl, rfl⟩
      unfold Group.load
      simp only [hprobe]
      rfl
    | true =>
      obtain ⟨pe, hp⟩ : ∃ pe, peerResult = Except.error pe := by
        rcases hpeer with hp | hp
        · exact absurd hp (by decide)
        · exact hp
      subst hp
      refine ⟨{ g with stats := { g.stats with
          loads := g.stats.loads + 1
          loadsDeduped := g.stats.loadsDeduped + 1
          peerErrors := g.stats.peerErrors + 1
          localLoadErrs := g.stats.localLoadErrs + 1 } },
        ?_, rfl, rfl, rfl, rfl, rfl⟩
      unfold Group.load
      simp only [hprobe]
      rfl
  · have hBpos : 0 < g.cacheBytes := by omega
    have hprobe := lookupCache_miss_pos
      { g with stats := { g.stats with loads := g.stats.loads + 1 } } key
      hBpos hmain hhot
    cases pick with
    | false =>
      refine ⟨{ g with
          mainCache := (g.mainCache.get key).1
          hotCache := (g.hotCache.get key).1
          stats := { g.stats with
            loads := g.stats.loads + 1
            loadsDeduped := g.stats.loadsDeduped + 1
            localLoadErrs := g.stats.localLoadErrs + 1 } },
        ?_, rfl, ?_, ?_, ?_, ?_⟩
      · unfold Group.load
        simp only [hprobe]
        rfl
      · rw [tier_get_miss_eq g.mainCache key hmain]
        simp [TierCache.entries]
      · rw [tier_get_miss_eq g.mainCache key hmain]
      · rw [tier_get_miss_eq g.hotCache key hhot]
        simp [TierCache.entries]
      · rw [tier_get_miss_eq g.hotCache key hhot]
    | true =>
      obtain ⟨pe, hp⟩ : ∃ pe, peerResult = Except.error pe := by
        rcases hpeer with hp | hp
        · exact absurd hp (by decide)
        · exact hp
      subst hp
      refine ⟨{ g with
          mainCache := (g.mainCache.get key).1
          hotCache := (g.hotCache.get key).1
          stats := { g.stats with
            loads := g.stats.loads + 1
            loadsDeduped := g.stats.loadsDeduped + 1
            peerErrors := g.stats.peerErrors + 1
            localLoadErrs := g.stats.localLoadErrs + 1 } },
        ?_, rfl, ?_, ?_, ?_, ?_⟩
      · unfold Group.load
        simp only [hprobe]
        rfl
      · rw [tier_get_miss_eq g.mainCache key hmain]
        simp [TierCache.entries]
      · rw [tier_get_miss_eq g.mainCache key hmain]
      · rw [tier_get_miss_eq g.hotCache key hhot]
        simp [TierCache.entries]
      · rw [tier_get_miss_eq g.hotCache key hhot]

/-- Witness for C8 at a concrete group with no remote peer. -/
theorem c8_loader_error_no_caching_witness :
    ∃ g1 : Group,
      (Group.mk 100 TierCache.zeroValue TierCache.zeroValue Stats.zero).load
          "k" false (.ok none) 0 (.error "boom") 1 = some (g1, .error "boom")
      ∧ g1.stats.localLoadErrs = Stats.zero.localLoadErrs + 1
      ∧ g1.mainCache.entries = TierCache.zeroValue.entries
      ∧ g1.mainCache.nbytes = TierCache.zeroValue.nbytes
      ∧ g1.hotCache.entries = TierCache.zeroValue.entries
      ∧ g1.hotCache.nbytes = TierCache.zeroValue.nbytes := by
  exact c8_loader_error_no_caching
    (Group.mk 100 TierCache.zeroValue TierCache.zeroValue Stats.zero) "k" 0 1
    "boom" false (.ok none) (by decide) (by decide) (Or.inl rfl)



/-! ### Single-flight theorems (C3) -/

/-- C3 fails as stated: a panicking producer leaves its in-flight record in
the map (Do has no deferred cleanup), and a later caller that finds the
pending record waits without ever observing a result, rather than getting
an error. -/
theorem c3_counterexample_panic_leaves_record :
    (sfDo ([] : SFMap Nat) "k" none).1 = [("k", (none : Option Nat))]
    ∧ (sfDo ([("k", (none : Option Nat))] : SFMap Nat) "k" (some 5)).2
        = DoRes.waited none :=
  ⟨rfl, rfl⟩

/-- C3 amended: when the producer panics, Do does not remove the in-flight
record — the pending record stays in the map and the panic propagates to
the calling goroutine — and any caller that finds a record for the key
waits on that record's state, so a pending record blocks it instead of
delivering an error. -/
theorem c3_amended_panic_keeps_record {R : Type} (m : SFMap R) (key : String)
    (hnew : m.find? (fun p => decide (p.1 = key)) = none) :
    (sfDo m key none).1 = (key, none) :: m
    ∧ (sfDo m key none).2 = DoRes.crashed
    ∧ ∀ (m2 : SFMap R) (o : Option R) (c : Option R),
      m2.find? (fun p => decide (p.1 = key)) = some (key, c) →
      sfDo m2 key o = (m2, .waited (sfWait c)) := by
  refine ⟨?_, ?_, ?_⟩
  · unfold sfDo
    simp only [hnew]
  · unfold sfDo
    simp only [hnew]
  · intro m2 o c hfound
    unfold sfDo
    simp only [hfound]

/-- Witness for the amended C3 on the empty map. -/
theorem c3_amended_panic_keeps_record_witness :
    (sfDo ([] : SFMap Nat) "w" none).1 = [("w", (none : Option Nat))]
    ∧ (sfDo ([] : SFMap Nat) "w" none).2 = DoRes.crashed := by
  have h := c3_amended_panic_keeps_record ([] : SFMap Nat) "w" rfl
  exact ⟨h.1, h.2.1⟩

/-! ### Consistent-hash theorems (C7) -/

/-- Go's sort.Search loop returns a split point: everything below is
rejected by f, and the result itself satisfies f when in range. -/
theorem searchLoop_spec (f : Nat → Bool) (n : Nat)
    (hmono : ∀ a b : Nat, a ≤ b → b < n → f a = true → f b = true) :
    ∀ (fuel i j : Nat), i ≤ j → j ≤ n → j - i ≤ fuel →
      (∀ a, a < i → f a = false) →
      (∀ a, j ≤ a → a < n → f a = true) →
      searchLoop f fuel i j ≤ n
        ∧ (∀ a, a < searchLoop f fuel i j → f a = false)
        ∧ (searchLoop f fuel i j < n → f (searchLoop f fuel i j) = true) := by
  intro fuel
  induction fuel with
  | zero =>
    intro i j hij hjn hfuel hlo hhi
    have : i = j := by omega
    subst this
    simp only [searchLoop]
    exact ⟨by omega, hlo, fun hin => hhi i (le_refl i) hin⟩
  | succ k ih =>
    intro i j hij hjn hfuel hlo hhi
    simp only [searchLoop]
    by_cases hlt : i < j
    · rw [if_pos hlt]
      have hmid1 : i ≤ (i + j) / 2 := by omega
      have hmid2 : (i + j) / 2 < j := by omega
      cases hfh : f ((i + j) / 2) with
      | true =>
        simp only [hfh, Bool.not_true, if_neg (by simp : ¬ (false = true))]
        exact ih i ((i + j) / 2) hmid1 (by omega) (by omega) hlo
          (fun a ha han =>
            hmono ((i + j) / 2) a ha han hfh)
      | false =>
        simp only [hfh, Bool.not_false, if_pos rfl]
        refine ih ((i + j) / 2 + 1) j (by omega) hjn (by omega) ?_ hhi
        intro a ha
        by_cases hai : a < i
        · exact hlo a hai
        · cases hfa : f a with
          | false => rfl
          | true =>
            have : f ((i + j) / 2) = true :=
              hmono a ((i + j) / 2) (by omega) (by omega) hfa
            rw [this] at hfh
            cases hfh
    · rw [if_neg hlt]
      have : i = j := by omega
      subst this
      exact ⟨by omega, hlo, fun hin => hhi i (le_refl i) hin⟩

/-- The linear scan returns the same kind of split point. -/
theorem scanLeast_spec (f : Nat → Bool) :
    ∀ (c i : Nat), (∀ a, a < i → f a = false) →
      scanLeast f c i ≤ i + c
        ∧ (∀ a, a < scanLeast f c i → f a = false)
        ∧ (scanLeast f c i < i + c → f (scanLeast f c i) = true) := by
  intro c
  induction c with
  | zero =>
    intro i hlo
    simp only [scanLeast]
    exact ⟨by omega, hlo, fun h => absurd h (by omega)⟩
  | succ k ih =>
    intro i hlo
    simp only [scanLeast]
    cases hfi : f i with
    | true =>
      rw [if_pos rfl]
      exact ⟨by omega, hlo, fun _ => hfi⟩
    | false =>
      rw [if_neg (by simp : ¬ (false = true))]
      obtain ⟨hb, hlo2, hhi2⟩ := ih (i + 1) (fun a ha => by
        by_cases hai : a < i
        · exact hlo a hai
        · have : a = i := by omega
          subst this
          exact hfi)
      exact ⟨by omega, hlo2, fun hlt => hhi2 (by omega)⟩

/-- Split points are unique. -/
theorem splitPoint_unique (f : Nat → Bool) (n r1 r2 : Nat)
    (h1n : r1 ≤ n) (h1lo : ∀ a, a < r1 → f a = false)
    (h1hi : r1 < n → f r1 = true)
    (h2n : r2 ≤ n) (h2lo : ∀ a, a < r2 → f a = false)
    (h2hi : r2 < n → f r2 = true) : r1 = r2 := by
  by_contra hne
  rcases Nat.lt_or_ge r1 r2 with hlt | hge
  · have ht : f r1 = true := h1hi (by omega)
    have hf : f r1 = false := h2lo r1 hlt
    rw [ht] at hf
    cases hf
  · have hlt2 : r2 < r1 := by omega
    have ht : f r2 = true := h2hi (by omega)
    have hf : f r2 = false := h1lo r2 hlt2
    rw [ht] at hf
    cases hf

/-- Under a monotone predicate, Go's binary search equals the linear least
search. -/
theorem sortSearch_eq_scanLeast (f : Nat → Bool) (n : Nat)
    (hmono : ∀ a b : Nat, a ≤ b → b < n → f a = true → f b = true) :
    sortSearch n f = scanLeast f n 0 := by
  have hs := searchLoop_spec f n hmono n 0 n (by omega) (by omega) (by omega)
    (fun a ha => absurd ha (by omega))
    (fun a hj hn => absurd (Nat.lt_of_le_of_lt hj hn) (by omega))
  have hc := scanLeast_spec f n 0 (fun a ha => absurd ha (by omega))
  exact splitPoint_unique f n _ _ hs.1 hs.2.1 hs.2.2
    (by omega) hc.2.1 (fun h => hc.2.2 (by omega))

/-- Sortedness makes the ≥-h predicate on indices monotone. -/
theorem sorted_ge_mono (keys : List Int) (h : Int)
    (hsort : List.Sorted (· ≤ ·) keys) :
    ∀ a b : Nat, a ≤ b → b < keys.length →
      decide (keys.getD a 0 ≥ h) = true →
      decide (keys.getD b 0 ≥ h) = true := by
  intro a b hab hbn ha
  rcases Nat.eq_or_lt_of_le hab with heq | hlt
  · subst heq
    exact ha
  · have han : a < keys.length := by omega
    have hle : keys.get ⟨a, han⟩ ≤ keys.get ⟨b, hbn⟩ :=
      (List.pairwise_iff_get.mp hsort) ⟨a, han⟩ ⟨b, hbn⟩ hlt
    rw [List.getD_eq_getElem keys 0 han] at ha
    rw [List.getD_eq_getElem keys 0 hbn]
    simp only [decide_eq_true_eq] at ha ⊢
    have : keys[a] ≤ keys[b] := hle
    omega

/-- C7: on an empty ring Get returns the "" sentinel; on a ring whose key
sequence is sorted (as Add maintains), Get computes hash(key), binary
searches for the least element ≥ h, wraps to index 0 when there is none,
and returns the peer the map associates with that hash — i.e. Get agrees
with the spec-side linear description chGetSpec. -/
theorem c7_ring_get_binary_search (m : CHMap) (key : String) :
    (m.keys = [] → m.Get key = "")
    ∧ (List.Sorted (· ≤ ·) m.keys → m.Get key = chGetSpec m key) := by
  constructor
  · intro h0
    unfold CHMap.Get
    rw [if_pos (by simp [CHMap.IsEmpty, h0])]
  · intro hsort
    unfold CHMap.Get chGetSpec
    by_cases h0 : m.keys.length = 0
    · rw [if_pos (by simp [CHMap.IsEmpty, h0]), if_pos h0]
    · rw [if_neg (by simp [CHMap.IsEmpty, h0]), if_neg h0]
      simp only [sortSearch_eq_scanLeast _ _
        (sorted_ge_mono m.keys ((m.hash key : Nat) : Int) hsort)]

/-- Witness for C7: a concrete two-node sorted ring, with the hash of a key
landing between the virtual nodes, and the empty ring. -/
theorem c7_ring_get_binary_search_witness :
    ((CHMap.mk 1 (fun s => s.length) [] []).Get "anything" = "")
    ∧ ((CHMap.mk 1 (fun s => s.length) [3, 10]
        [(3, "peerA"), (10, "peerB")]).Get "xxxxx"
      = chGetSpec (CHMap.mk 1 (fun s => s.length) [3, 10]
        [(3, "peerA"), (10, "peerB")]) "xxxxx") := by
  constructor
  · exact (c7_ring_get_binary_search
      (CHMap.mk 1 (fun s => s.length) [] []) "anything").1 rfl
  · exact (c7_ring_get_binary_search
      (CHMap.mk 1 (fun s => s.length) [3, 10]
        [(3, "peerA"), (10, "peerB")]) "xxxxx").2 (by decide)


end GC
